import Mathlib

/-!
Shallow embedding of `src/rts/vec.hpp` (the rts lane-vector library) and
proofs about its lane-addressing model: element pointers (`const_vptr` /
`vptr`), the bit-packed boolean mask vector, active-lane enumeration,
the default loader strategy, and the elementwise operator algebra.

Machine integers are modelled as `Int` / `Nat`; C++ truncating division
(`/`, `%` on signed integers) is `Int.tdiv` / `Int.tmod`.
-/

namespace rts

/-! ## Element pointers (vec.hpp lines 276-301, 343-377)

A `const_vptr<T,A>` / `vptr<T,A>` is a pair of a vector address
(`const vec<T,A> * v`) and a lane index (`std::int32_t i`).  The vector
address is modelled as an `Int` index into the underlying array of vectors
(raw-pointer arithmetic `v + q` becomes integer addition), and the lane
index as an `Int`.  Both pointer flavours share the same arithmetic code,
so one Lean structure stands for both. -/
structure vptr where
  v : Int
  i : Int
deriving DecidableEq, Repr

/-- Source vec.hpp lines 1604-1610 and 1621-1627 (`operator+` on
`const_vptr` and `vptr`; the two template bodies are identical):
`k = lhs.i + j; v = lhs.v + k / width; i = k % width;`
`return (i < 0) ? (v-1, i+1) : (v, i)` with C++ truncating `/` and `%`. -/
def vptr.add (w : Nat) (p : vptr) (j : Int) : vptr :=
  let k : Int := p.i + j
  let v : Int := p.v + Int.tdiv k w
  let i : Int := Int.tmod k w
  if i < 0 then ⟨v - 1, i + 1⟩ else ⟨v, i⟩

/-- Source vec.hpp lines 1798-1805 (`vptr<T,A>::operator+=`), identical
arithmetic to `operator+` written with in-place updates:
`k = i + j; v += k / width; i = k % width; if (i < 0) { ++i; --v; }`. -/
def vptr.addAssign (w : Nat) (p : vptr) (j : Int) : vptr :=
  let k : Int := p.i + j
  let v : Int := p.v + Int.tdiv k w
  let i : Int := Int.tmod k w
  if i < 0 then ⟨v - 1, i + 1⟩ else ⟨v, i⟩

/-- Source vec.hpp lines 1629-1632 (`operator-` on two pointers):
`A::width * (lhs.v - rhs.v) + lhs.i - rhs.i`. -/
def vptr.sub (w : Nat) (p q : vptr) : Int :=
  w * (p.v - q.v) + p.i - q.i

/-- Source vec.hpp lines 1724-1729 (pre-increment, and via lines
1738-1743 also post-increment): `lhs.i += 1; if (lhs.i > A::width)
{ lhs.i = 0; ++lhs.v; }`.  Note the strict `>`. -/
def vptr.inc (w : Nat) (p : vptr) : vptr :=
  let i : Int := p.i + 1
  if i > (w : Int) then ⟨p.v + 1, 0⟩ else ⟨p.v, i⟩

/-- Source vec.hpp lines 1731-1736 (pre-decrement, and via lines
1745-1750 also post-decrement): `lhs.i -= 1; if (lhs.i < 0)
{ lhs.i = A::width-1; --lhs.v; }`. -/
def vptr.dec (w : Nat) (p : vptr) : vptr :=
  let i : Int := p.i - 1
  if i < 0 then ⟨p.v - 1, (w : Int) - 1⟩ else ⟨p.v, i⟩

/-- Modelled from the spec (section 4.4), for comparison with the code:
`p + k` under floor-division semantics.  With `i' = i + k`,
`q = floor(i' / width)`, `r = i' - q*width`, the result is
`(V + q, r)` and `0 <= r < width` always holds. -/
def vptr.addSpec (w : Nat) (p : vptr) (k : Int) : vptr :=
  let i' : Int := p.i + k
  let q : Int := Int.fdiv i' w
  ⟨p.v + q, i' - q * w⟩

/-- C1.  The claim states that `p + k` renormalizes the lane index by
floor division, so the lane index always lands in `[0, width)`.  The code
instead truncates and patches a negative remainder with `i + 1` (not
`i + width`): at width 4, `(V, 0) + (-1)` yields `(V-1, 0)` where floor
semantics require `(V-1, 3)`, and `(V, 0) + (-2)` yields the out-of-range
lane index `-1` (tripping the `const_vptr` constructor assertion
`0 <= i && i < width`).  `operator+=` computes the same wrong values. -/
theorem vptr_add_negative_offset_eval :
    vptr.add 4 ⟨0, 0⟩ (-1) = ⟨-1, 0⟩ ∧
    vptr.addSpec 4 ⟨0, 0⟩ (-1) = ⟨-1, 3⟩ ∧
    vptr.add 4 ⟨0, 0⟩ (-2) = ⟨-1, -1⟩ ∧
    vptr.addSpec 4 ⟨0, 0⟩ (-2) = ⟨-1, 2⟩ ∧
    vptr.addAssign 4 ⟨0, 0⟩ (-2) = ⟨-1, -1⟩ ∧
    ((vptr.add 4 ⟨0, 0⟩ (-2)).i < 0) := by
  decide

/-- C2.  The claim states `(p + a) + b = p + (a + b)` and
`(p + a) - p = a`.  Both laws fail on the code for negative offsets,
because of the broken negative-remainder patch in `operator+`
(vec.hpp:1621-1627): at width 4 with `p = (V, 0)`, `a = -1`, `b = 1`
the code computes `(p + a) + b = (V-1, 1)` but `p + (a + b) = (V, 0)`,
and `(p + (-1)) - p = -4` instead of `-1`. -/
theorem vptr_group_laws_eval :
    vptr.add 4 (vptr.add 4 ⟨0, 0⟩ (-1)) 1 = ⟨-1, 1⟩ ∧
    vptr.add 4 ⟨0, 0⟩ ((-1) + 1) = ⟨0, 0⟩ ∧
    vptr.add 4 (vptr.add 4 ⟨0, 0⟩ (-1)) 1 ≠ vptr.add 4 ⟨0, 0⟩ ((-1) + 1) ∧
    vptr.sub 4 (vptr.add 4 ⟨0, 0⟩ (-1)) ⟨0, 0⟩ = -4 ∧
    ((-4 : Int) ≠ -1) := by
  decide

/-- C3.  The claim states that increment agrees with `p + 1`, and in
particular incrementing at lane `width-1` yields `(V+1, 0)`.  The code's
wrap test (vec.hpp:1727) is `i > width` where it should be `i >= width`,
so at width 4 incrementing `(V, 3)` leaves the pointer at `(V, 4)` — a
lane index outside `[0, width)` — while the code's own `operator+`
computes `(V, 3) + 1 = (V+1, 0)`.  (Decrement is correct: `(V, 0)`
decrements to `(V-1, 3)`, matching floor semantics for `p - 1`.) -/
theorem vptr_inc_wrap_eval :
    vptr.inc 4 ⟨0, 3⟩ = ⟨0, 4⟩ ∧
    vptr.add 4 ⟨0, 3⟩ 1 = ⟨1, 0⟩ ∧
    vptr.inc 4 ⟨0, 3⟩ ≠ vptr.add 4 ⟨0, 3⟩ 1 ∧
    ¬ (vptr.inc 4 ⟨0, 3⟩).i < 4 ∧
    vptr.dec 4 ⟨0, 0⟩ = ⟨-1, 3⟩ ∧
    vptr.dec 4 ⟨0, 0⟩ = vptr.addSpec 4 ⟨0, 0⟩ (-1) := by
  decide

/-! ## Generic lane vector (vec.hpp lines 118-205)

The primary template `vec<T,A>` owns `T data[arch::width]`; lane access
is `data[i]`, valid for `0 <= i < width`.  The array is modelled as a
total function on `Fin w`. -/
structure vec (T : Type) (w : Nat) where
  data : Fin w → T

/-- Source vec.hpp line 180-181: `reference get(int i) { return data[i]; }`. -/
def vec.get (v : vec T w) (i : Fin w) : T := v.data i

/-- Source vec.hpp line 182: `void put(int i, const T & rhs) { data[i] = rhs; }`. -/
def vec.put (v : vec T w) (i : Fin w) (x : T) : vec T w :=
  ⟨Function.update v.data i x⟩

/-- Source vec.hpp line 142: the default constructor `vec() : data() {}`
value-initializes every lane; `z` stands for the value-initialized `T()`
(zero for the arithmetic element types). -/
def vec.defaultVec (w : Nat) (z : T) : vec T w := ⟨fun _ => z⟩

/-- Source vec.hpp line 144: the broadcast constructor
`vec(const T & u)` assigns `u` to every lane. -/
def vec.broadcast (w : Nat) (u : T) : vec T w := ⟨fun _ => u⟩

/-- Source vec.hpp line 145: the initializer-list constructor
zero-fills `data` and then copies the list into its front; `z` stands
for the value-initialized `T()` of the lanes the list does not cover. -/
def vec.ofList (w : Nat) (z : T) (xs : List T) : vec T w :=
  ⟨fun i => xs.getD i z⟩

/-! ## Mask vector: the bit-packed boolean specialization
(vec.hpp lines 401-464)

`vec<bool,A>` stores all lanes in a single `std::uint32_t data`, one bit
per lane.  The word is modelled as a `Nat`; the C++ narrowing stores back
into the 32-bit field are written out as `% 2^32` where the intermediate
is wider than 32 bits. -/
structure maskVec (w : Nat) where
  data : Nat

/-- Source vec.hpp line 40 (and the per-architecture copies):
`width_mask = (1 << width) - 1`. -/
def width_mask (w : Nat) : Nat := (1 <<< w) - 1

/-- Bitwise complement on a `std::uint32_t` value. -/
def not32 (x : Nat) : Nat := (2 ^ 32 - 1) ^^^ x

/-- Bitwise complement of `1ul << i` on `unsigned long` (64 bits),
as used by `put` (vec.hpp line 462). -/
def not64shift (i : Nat) : Nat := (2 ^ 64 - 1) ^^^ (1 <<< i)

/-- Source vec.hpp line 463: `movemask() { return data; }`, and the free
function at lines 589-592 forwarding to it. -/
def movemask (m : maskVec w) : Nat := m.data

/-- Source vec.hpp line 427: default constructor, `data(0)`. -/
def maskVec.defaultMask (w : Nat) : maskVec w := ⟨0⟩

/-- Source vec.hpp line 429: `vec(bool b) : data(b ? width_mask : 0)`. -/
def maskVec.ofBool (w : Nat) (b : Bool) : maskVec w :=
  ⟨if b then width_mask w else 0⟩

/-- Source vec.hpp line 431: `vec(std::false_type) : data(0)`. -/
def maskVec.ofFalse (w : Nat) : maskVec w := ⟨0⟩

/-- Source vec.hpp line 432: `vec(std::true_type) : data(width_mask)`. -/
def maskVec.ofTrue (w : Nat) : maskVec w := ⟨width_mask w⟩

/-- Source vec.hpp lines 435-438: conversion from another vector,
`for (i = 0; i < width; ++i) if (that.get(i)) data |= 1ul << i;`.
The source vector is represented by the truthiness of its lanes. -/
def maskVec.ofVec (w : Nat) (g : Fin w → Bool) : maskVec w :=
  ⟨(List.range w).foldl
    (fun d j => if h : j < w then (if g ⟨j, h⟩ then d ||| (1 <<< j) else d) else d) 0⟩

/-- Source vec.hpp lines 440-446: the initializer-list constructor,
`int i = 1; for (auto b : bs) { if (b) data |= i; i <<= 1; }`.
The loop state is the pair `(data, i)`. -/
def maskVec.ofList (w : Nat) (bs : List Bool) : maskVec w :=
  ⟨(bs.foldl (fun (p : Nat × Nat) b => (if b then p.1 ||| p.2 else p.1, p.2 <<< 1))
      (0, 1)).1⟩

/-- Source vec.hpp lines 448-449: `operator~` and `operator!` both return
`vec(data ^ width_mask, internal_tag)`. -/
def maskVec.mnot (m : maskVec w) : maskVec w := ⟨m.data ^^^ width_mask w⟩

/-- Source vec.hpp line 450 (`operator&`), with line 457 (`operator&=`)
performing the same bitwise update in place. -/
def maskVec.mand (m n : maskVec w) : maskVec w := ⟨m.data &&& n.data⟩

/-- Source vec.hpp line 451 (`operator|`), with line 458 (`operator|=`). -/
def maskVec.mor (m n : maskVec w) : maskVec w := ⟨m.data ||| n.data⟩

/-- Source vec.hpp line 452 (`operator^`), with line 459 (`operator^=`). -/
def maskVec.mxor (m n : maskVec w) : maskVec w := ⟨m.data ^^^ n.data⟩

/-- Source vec.hpp line 453: `operator&&` is bitwise and of the packed words. -/
def maskVec.mandand (m n : maskVec w) : maskVec w := ⟨m.data &&& n.data⟩

/-- Source vec.hpp line 454: `operator||` is bitwise or of the packed words. -/
def maskVec.moror (m n : maskVec w) : maskVec w := ⟨m.data ||| n.data⟩

/-- Source vec.hpp line 461: `bool get(int i) { return data & (1ul << i); }`
(truthiness of the selected bit). -/
def maskVec.mget (m : maskVec w) (i : Nat) : Bool :=
  decide (m.data &&& (1 <<< i) ≠ 0)

/-- Source vec.hpp line 462:
`void put(int i, bool b) { data = b ? data | (1ul << i) : data & ~(1ul << i); }`.
The clear branch computes on `unsigned long` (64 bits) and narrows the
result back into the `std::uint32_t` field. -/
def maskVec.mput (m : maskVec w) (i : Nat) (b : Bool) : maskVec w :=
  ⟨if b then m.data ||| (1 <<< i) else (m.data &&& not64shift i) % 2 ^ 32⟩

/-- Source vec.hpp lines 594-597: `any(m) { return movemask(m) != 0; }`. -/
def any (m : maskVec w) : Bool := decide (movemask m ≠ 0)

/-- Source vec.hpp lines 599-602: `all(m) { return movemask(m) == A::width_mask; }`. -/
def all (m : maskVec w) : Bool := decide (movemask m = width_mask w)

/-- C4.  `any(m)` is true exactly when `movemask(m) != 0`, and `all(m)`
is true exactly when `movemask(m)` equals the mask word with all `width`
low bits set. -/
theorem any_all_movemask_spec :
    ∀ (w : Nat) (m : maskVec w),
      (any m = true ↔ movemask m ≠ 0) ∧
      (all m = true ↔ movemask m = width_mask w) := by
  intro w m
  constructor <;> simp [any, all]

/-! ### Bit-level helper lemmas for the packed mask word -/

lemma land_shift_ne_zero (a i : Nat) : (a &&& (1 <<< i) ≠ 0) ↔ a.testBit i = true := by
  rw [Nat.shiftLeft_eq, one_mul, Nat.and_two_pow]
  cases h : a.testBit i <;> simp

lemma mget_eq_testBit (m : maskVec w) (i : Nat) :
    m.mget i = m.data.testBit i := by
  simp only [maskVec.mget]
  cases h : m.data.testBit i
  · simp [land_shift_ne_zero, h]
  · simp [land_shift_ne_zero, h]

lemma testBit_not64shift (i j : Nat) (hj : j < 64) :
    (not64shift i).testBit j = !(decide (i = j)) := by
  rw [not64shift, Nat.testBit_xor, Nat.testBit_two_pow_sub_one,
    Nat.shiftLeft_eq, one_mul, Nat.testBit_two_pow]
  simp [hj]

/-- Lane-wise description of `maskVec.mput`: bit `i` becomes `b`, every
other bit below 32 keeps its value. -/
lemma mput_testBit (m : maskVec w) (i k : Nat) (b : Bool)
    (hk : k < 32) :
    ((m.mput i b).data).testBit k = if k = i then b else m.data.testBit k := by
  have hk64 : k < 64 := lt_of_lt_of_le hk (by norm_num)
  cases b with
  | true =>
    show ((m.data ||| 1 <<< i)).testBit k = _
    rw [Nat.testBit_lor, Nat.shiftLeft_eq, one_mul, Nat.testBit_two_pow]
    by_cases h : k = i
    · simp [h]
    · have h' : i ≠ k := fun hik => h hik.symm
      simp [h, h']
  | false =>
    show (((m.data &&& not64shift i) % 2 ^ 32)).testBit k = _
    rw [Nat.testBit_mod_two_pow, Nat.testBit_land, testBit_not64shift i k hk64]
    by_cases h : k = i
    · simp [h, hk]
    · have h' : i ≠ k := fun hik => h hik.symm
      simp [h, h', hk]

/-- C7.  `put` then `get` at the same lane returns the stored value, and
`get` at every other lane is unchanged — for the generic array-backed
vector (vec.hpp:180-182) and for the bit-packed boolean specialization
(vec.hpp:461-462) alike. -/
theorem put_get_frame :
    (∀ (T : Type) (w : Nat) (v : vec T w) (i j : Fin w) (x : T),
      (v.put i x).get i = x ∧ (j ≠ i → (v.put i x).get j = v.get j)) ∧
    (∀ (w : Nat) (m : maskVec w) (i j : Nat) (b : Bool),
      w ≤ 32 → i < w → j < w →
      ((m.mput i b).mget i = b ∧ (j ≠ i → (m.mput i b).mget j = m.mget j))) := by
  constructor
  · intro T w v i j x
    constructor
    · show Function.update v.data i x i = x
      exact Function.update_same i x v.data
    · intro hji
      show Function.update v.data i x j = v.data j
      exact Function.update_noteq hji x v.data
  · intro w m i j b h32 hi hj
    have hj32 : j < 32 := lt_of_lt_of_le hj (le_trans h32 (by norm_num))
    have hi32 : i < 32 := lt_of_lt_of_le hi (le_trans h32 (by norm_num))
    constructor
    · rw [mget_eq_testBit, mput_testBit m i i b hi32, if_pos rfl]
    · intro hji
      rw [mget_eq_testBit, mput_testBit m i j b hj32, if_neg hji,
        mget_eq_testBit]

/-- C7 witness: concrete instantiation at width 4 of both halves of
`put_get_frame`, hypotheses discharged by `decide`. -/
theorem put_get_frame_witness :
    ((2 : Fin 4) ≠ (1 : Fin 4) ∧ 4 ≤ 32 ∧ 1 < 4 ∧ 2 < 4 ∧ (2 : Nat) ≠ 1) ∧
    ((vec.defaultVec 4 (0 : Int)).put 1 7).get 1 = 7 ∧
    ((vec.defaultVec 4 (0 : Int)).put 1 7).get 2 = (vec.defaultVec 4 (0 : Int)).get 2 ∧
    ((maskVec.mk 5 : maskVec 4).mput 1 true).mget 1 = true ∧
    ((maskVec.mk 5 : maskVec 4).mput 1 true).mget 2 = (maskVec.mk 5 : maskVec 4).mget 2 :=
  ⟨⟨by decide, by decide, by decide, by decide, by decide⟩,
   (put_get_frame.1 Int 4 (vec.defaultVec 4 0) 1 2 7).1,
   (put_get_frame.1 Int 4 (vec.defaultVec 4 0) 1 2 7).2 (by decide),
   (put_get_frame.2 4 ⟨5⟩ 1 2 true (by decide) (by decide) (by decide)).1,
   (put_get_frame.2 4 ⟨5⟩ 1 2 true (by decide) (by decide) (by decide)).2 (by decide)⟩

/-! ## Composite tuple vector (vec.hpp lines 1455-1508)

`vec<std::tuple<Ts...>,A>` holds one component lane vector per tuple
field (`std::tuple<vec<Ts,A>...> data`); modelled at arity two. -/
structure vecTuple (S T : Type) (w : Nat) where
  c1 : vec S w
  c2 : vec T w

/-- Source vec.hpp line 1473:
`constexpr vec(std::tuple<Ts...> b) noexcept : data() {}` — the scalar
tuple argument `b` is never read; `data()` value-initializes the tuple of
component vectors, i.e. default-constructs each one (`zS`, `zT` stand for
the value-initialized component elements). -/
def vecTuple.ofScalarTuple (w : Nat) (zS : S) (zT : T) (_b : S × T) : vecTuple S T w :=
  ⟨vec.defaultVec w zS, vec.defaultVec w zT⟩

/-- C10.  Constructing a tuple composite vector from a scalar tuple
value leaves every component lane vector default-constructed; the
broadcast argument is ignored (any two arguments give the same vector),
unlike the scalar broadcast constructor of the plain vector form, which
fills every lane with its argument. -/
theorem tuple_broadcast_ignored :
    ∀ (S T : Type) (w : Nat) (zS : S) (zT : T) (b b' : S × T) (i : Fin w) (u : S),
      ((vecTuple.ofScalarTuple w zS zT b).c1.get i = zS ∧
       (vecTuple.ofScalarTuple w zS zT b).c2.get i = zT) ∧
      vecTuple.ofScalarTuple w zS zT b = vecTuple.ofScalarTuple w zS zT b' ∧
      (vec.broadcast w u).get i = u := by
  intro S T w zS zT b b' i u
  exact ⟨⟨rfl, rfl⟩, rfl, rfl⟩

/-! ## Active-lane enumeration (vec.hpp lines 604-611) -/

/-- Modelled from the spec: `bscf` is declared in `x86.hpp`, which is not
part of the sources under verification; per the spec (section 4.3) it is
bit-scan-forward-and-clear — it returns the index of the lowest set bit
of `m` and clears that bit.  Written here by recursion on the binary
representation: an odd word has lowest set bit 0 (cleared by subtracting
one), an even word defers to its upper bits. -/
def bscf (m : Nat) : Nat × Nat :=
  if m = 0 then (0, 0)
  else if m % 2 = 1 then (0, m - 1)
  else
    let p := bscf (m / 2)
    (p.1 + 1, 2 * p.2)
termination_by m
decreasing_by exact Nat.div_lt_self (Nat.pos_of_ne_zero (by assumption)) (by decide)

lemma bscf_snd_lt : ∀ m : Nat, m ≠ 0 → (bscf m).2 < m := by
  intro m
  induction m using Nat.strong_induction_on with
  | _ m ih =>
    intro h
    rw [bscf]
    by_cases h2 : m % 2 = 1
    · simp only [h, if_false, h2, if_true]
      omega
    · simp only [h, if_false, h2, if_true]
      have hm2 : m / 2 ≠ 0 := by omega
      have := ih (m / 2) (by omega) hm2
      omega

/-- The word returned by `bscf` is the input with the extracted bit
cleared and no other bit changed. -/
lemma bscf_clears : ∀ m : Nat, m ≠ 0 →
    ∀ j, ((bscf m).2).testBit j = (m.testBit j && !(decide (j = (bscf m).1))) := by
  intro m
  induction m using Nat.strong_induction_on with
  | _ m ih =>
    intro h j
    rw [bscf]
    by_cases h2 : m % 2 = 1
    · simp only [h, if_false, h2, if_true]
      cases j with
      | zero =>
        have hm1 : (m - 1) % 2 = 0 := by omega
        simp [Nat.testBit_zero, hm1, h2]
      | succ j' =>
        have hdiv : (m - 1) / 2 = m / 2 := by omega
        simp [Nat.testBit_succ, hdiv]
    · simp only [h, if_false, h2, if_true]
      have hm2 : m / 2 ≠ 0 := by omega
      cases j with
      | zero =>
        have hq : (2 * (bscf (m / 2)).2) % 2 = 0 := by omega
        have hm0 : m % 2 = 0 := by omega
        simp [Nat.testBit_zero, hq, hm0]
      | succ j' =>
        have hq : (2 * (bscf (m / 2)).2) / 2 = (bscf (m / 2)).2 := by omega
        simp only [Nat.testBit_succ, hq, ih (m / 2) (by omega) hm2 j']
        by_cases hj : j' = (bscf (m / 2)).1
        · simp [hj]
        · have hj2 : j' + 1 ≠ (bscf (m / 2)).1 + 1 := by omega
          simp [hj, hj2]

/-- `bscf` extracts the lowest set bit: the returned index is set in the
input and all lower bits are clear. -/
lemma bscf_lowest : ∀ m : Nat, m ≠ 0 →
    m.testBit (bscf m).1 = true ∧
    ∀ j, j < (bscf m).1 → m.testBit j = false := by
  intro m
  induction m using Nat.strong_induction_on with
  | _ m ih =>
    intro h
    rw [bscf]
    by_cases h2 : m % 2 = 1
    · simp only [h, if_false, h2, if_true]
      exact ⟨by simp [Nat.testBit_zero, h2], fun j hj => absurd hj (by omega)⟩
    · simp only [h, if_false, h2, if_true]
      have hm2 : m / 2 ≠ 0 := by omega
      obtain ⟨ihset, ihlow⟩ := ih (m / 2) (by omega) hm2
      refine ⟨by simpa [Nat.testBit_succ] using ihset, fun j hj => ?_⟩
      cases j with
      | zero => simp [Nat.testBit_zero]; omega
      | succ j' =>
        simp only [Nat.testBit_succ]
        exact ihlow j' (by omega)

/-- Source vec.hpp lines 604-611 (`foreach_active`): repeatedly extract
and clear the lowest set bit of the movemask word until it is zero.
The value is the list of lane indices passed to `f`, in invocation
order; the recursion terminates because clearing a set bit strictly
decreases the word. -/
def foreachActiveList (m : Nat) : List Nat :=
  if h : m = 0 then []
  else (bscf m).1 :: foreachActiveList (bscf m).2
termination_by m
decreasing_by exact bscf_snd_lt m h

lemma foreachActive_mem : ∀ m j : Nat,
    (j ∈ foreachActiveList m ↔ m.testBit j = true) := by
  intro m
  induction m using Nat.strong_induction_on with
  | _ m ih =>
    intro j
    rw [foreachActiveList]
    by_cases h : m = 0
    · simp [h, Nat.zero_testBit]
    · simp only [h, dif_neg, List.mem_cons, not_false_iff]
      rw [ih (bscf m).2 (bscf_snd_lt m h) j, bscf_clears m h j]
      by_cases hj : j = (bscf m).1
      · simp [hj, (bscf_lowest m h).1]
      · simp [hj]

lemma foreachActive_pairwise : ∀ m : Nat,
    (foreachActiveList m).Pairwise (· < ·) := by
  intro m
  induction m using Nat.strong_induction_on with
  | _ m ih =>
    rw [foreachActiveList]
    by_cases h : m = 0
    · simp [h]
    · simp only [h, dif_neg, not_false_iff, List.pairwise_cons]
      refine ⟨fun j hj => ?_, ih (bscf m).2 (bscf_snd_lt m h)⟩
      rw [foreachActive_mem _ j, bscf_clears m h j] at hj
      have hset : m.testBit j = true := by
        cases hm : m.testBit j <;> simp [hm] at hj ⊢
      have hne : j ≠ (bscf m).1 := by
        intro hji
        simp [hji, hset] at hj
      rcases Nat.lt_trichotomy j (bscf m).1 with hlt | heq | hgt
      · exact absurd hset (by simp [(bscf_lowest m h).2 j hlt])
      · exact absurd heq hne
      · exact hgt

/-- Source vec.hpp lines 604-611: `foreach_active(mask, f)` applied to a
mask vector; the list records the argument of each invocation of `f`,
first invocation first. -/
def foreach_active (m : maskVec w) : List Nat :=
  foreachActiveList (movemask m)

/-- C5.  `foreach_active(m, f)` invokes `f` exactly once for each index
whose bit is set in `movemask(m)` — membership in the invocation list is
exactly bit-membership, the list is strictly ascending (hence free of
duplicates) — and never for a clear bit; the enumeration is a
terminating (total) function of the mask. -/
theorem foreach_active_enumeration :
    ∀ (w : Nat) (m : maskVec w),
      (∀ j, j ∈ foreach_active m ↔ (movemask m).testBit j = true) ∧
      (foreach_active m).Pairwise (· < ·) ∧
      (foreach_active m).Nodup := by
  intro w m
  refine ⟨fun j => foreachActive_mem _ j, foreachActive_pairwise _, ?_⟩
  exact (foreachActive_pairwise _).imp fun h => Nat.ne_of_lt h

/-! ## Lane-write loops

Both the operator algebra (`for (i = 0; i < width; ++i) result.put(i, …)`)
and the default loader (`foreach_active(m, [&](int i) { u.put(i, …); })`)
are loops issuing one `put` per visited lane, the stored value depending
only on the lane index.  `putLoop` is that loop shape over an index list;
out-of-range indices (impossible in the source, where indices come from
`0..width-1` or from a movemask respecting the width invariant) leave the
vector unchanged. -/
def putLoop (w : Nat) (xs : List Nat) (g : Fin w → T) (acc : vec T w) : vec T w :=
  xs.foldl (fun a j => if h : j < w then a.put ⟨j, h⟩ (g ⟨j, h⟩) else a) acc

lemma vec.get_put_self (v : vec T w) (i : Fin w) (x : T) : (v.put i x).get i = x := by
  show Function.update v.data i x i = x
  exact Function.update_same i x v.data

lemma vec.get_put_ne (v : vec T w) (i j : Fin w) (h : j ≠ i) (x : T) :
    (v.put i x).get j = v.get j := by
  show Function.update v.data i x j = v.data j
  exact Function.update_noteq h x v.data

lemma get_putLoop : ∀ (xs : List Nat) (g : Fin w → T) (acc : vec T w) (i : Fin w),
    (putLoop w xs g acc).get i = if (i : Nat) ∈ xs then g i else acc.get i := by
  intro xs
  induction xs with
  | nil => intro g acc i; simp [putLoop]
  | cons x xs ihx =>
    intro g acc i
    have hstep : putLoop w (x :: xs) g acc =
        putLoop w xs g (if h : x < w then acc.put ⟨x, h⟩ (g ⟨x, h⟩) else acc) := rfl
    rw [hstep, ihx]
    by_cases hmem : (i : Nat) ∈ xs
    · simp [hmem]
    · by_cases hx : (i : Nat) = x
      · have hxw : x < w := hx ▸ i.isLt
        have hfin : (⟨x, hxw⟩ : Fin w) = i := Fin.ext hx.symm
        rw [if_neg hmem, dif_pos hxw, hfin, vec.get_put_self,
          if_pos (by simp [hx])]
      · rw [if_neg hmem, if_neg (by simp [hx, hmem])]
        by_cases hw : x < w
        · rw [dif_pos hw, vec.get_put_ne acc ⟨x, hw⟩ i (fun hh => hx (congrArg Fin.val hh)) (g ⟨x, hw⟩)]
        · rw [dif_neg hw]

/-! ## Operator algebra (vec.hpp lines 1540-1582)

`RTS_BINOP` synthesizes, for every binary operator, a vector-vector form
and two mixed vector/scalar forms; each constructs a fresh result vector
(default-constructed, then every lane written by `put`) whose element
type is whatever the scalar operator produces. -/

/-- Source vec.hpp lines 1542-1547 (`RTS_BINOP_LHS`, vector-vector form):
`vec<decltype(l.get(0) op r.get(0)), A> result;`
`for (i = 0; i < width; ++i) result.put(i, l.get(i) op r.get(i));`
`z` stands for the value-initialized element of the fresh result. -/
def vbinop (w : Nat) (op : α → β → γ) (z : γ) (l : vec α w) (r : vec β w) : vec γ w :=
  putLoop w (List.range w) (fun i => op (l.get i) (r.get i)) (vec.defaultVec w z)

/-- Source vec.hpp lines 1548-1553 (`RTS_BINOP_LHS`, vector-scalar form):
`result.put(i, l.get(i) op r)` for a scalar right operand. -/
def vbinopScalarR (w : Nat) (op : α → β → γ) (z : γ) (l : vec α w) (s : β) : vec γ w :=
  putLoop w (List.range w) (fun i => op (l.get i) s) (vec.defaultVec w z)

/-- Source vec.hpp lines 1554-1560 (`RTS_BINOP_RHS`, scalar-vector form):
`result.put(i, l op r.get(i))` for a scalar left operand. -/
def vbinopScalarL (w : Nat) (op : α → β → γ) (z : γ) (s : α) (r : vec β w) : vec γ w :=
  putLoop w (List.range w) (fun i => op s (r.get i)) (vec.defaultVec w z)

/-- Two's-complement wrap of an integer into the `std::int32_t` range. -/
def wrap32 (x : Int) : Int := (x + 2 ^ 31) % 2 ^ 32 - 2 ^ 31

/-- Addition of 32-bit signed integers (the element operation of the
spec's width-4 scenario). -/
def int32add (a b : Int) : Int := wrap32 (a + b)

/-- C8.  Every synthesized binary operator is elementwise:
`(lhs op rhs)[i] = lhs[i] op rhs[i]` for the vector-vector form, and
likewise for the two mixed vector/scalar broadcast forms — for an
arbitrary scalar operator `op` and arbitrary operand/result element
types, hence for every operator instantiated by `RTS_BINOP`.  In
particular, at width 4 with 32-bit integer elements,
`{1,2,3,4} + {10,20,30,40} = {11,22,33,44}` lane by lane. -/
theorem binop_elementwise :
    (∀ (α β γ : Type) (w : Nat) (op : α → β → γ) (z : γ)
        (l : vec α w) (r : vec β w) (i : Fin w),
      (vbinop w op z l r).get i = op (l.get i) (r.get i)) ∧
    (∀ (α β γ : Type) (w : Nat) (op : α → β → γ) (z : γ)
        (l : vec α w) (s : β) (i : Fin w),
      (vbinopScalarR w op z l s).get i = op (l.get i) s) ∧
    (∀ (α β γ : Type) (w : Nat) (op : α → β → γ) (z : γ)
        (s : α) (r : vec β w) (i : Fin w),
      (vbinopScalarL w op z s r).get i = op s (r.get i)) ∧
    (∀ i : Fin 4,
      (vbinop 4 int32add 0 (vec.ofList 4 0 [1, 2, 3, 4])
          (vec.ofList 4 0 [10, 20, 30, 40])).get i
        = (vec.ofList 4 0 [11, 22, 33, 44]).get i) := by
  refine ⟨?_, ?_, ?_, by decide⟩
  · intro α β γ w op z l r i
    rw [vbinop, get_putLoop, if_pos (List.mem_range.mpr i.isLt)]
  · intro α β γ w op z l s i
    rw [vbinopScalarR, get_putLoop, if_pos (List.mem_range.mpr i.isLt)]
  · intro α β γ w op z s r i
    rw [vbinopScalarL, get_putLoop, if_pos (List.mem_range.mpr i.isLt)]

/-! ## Default loader strategy (vec.hpp lines 622-649)

`base_loader<T,A>` implements masked load by iterating the active lanes
of the mask and issuing one scalar access per lane.  Memory is modelled
as a total map from addresses to values, so `*v.get(i)` is
`mem (v.get i)`; the pointer lane vector is a `vec` of addresses, exactly
as `vec<T*,A>` instantiates the primary template. -/

/-- Source vec.hpp lines 630-632 (`base_loader::load_masked`):
`foreach_active(m, [&](int i) { u.put(i, *v.get(i)); });`. -/
def load_masked (w : Nat) (mem : addr → T) (u : vec T w) (v : vec addr w)
    (m : maskVec w) : vec T w :=
  putLoop w (foreach_active m) (fun i => mem (v.get i)) u

/-- C6.  The masked load assigns `dst[i] = *src[i]` exactly on the lanes
whose mask bit is set and leaves every other lane's prior content
untouched; instantiated on the spec scenario (memory `[100,200,300,400]`,
mask `{true,true,false,false}`, zero-initialized destination) it yields
`{100,200,0,0}`.  This is the behavior of `base_loader::load_masked`,
the loader-strategy operation the free function `load(pointers, mask)`
is meant to dispatch to (its `noexcept` clause names it); the free
function's body instead calls a three-argument `loader::load` that no
loader defines, so it does not compile as written. -/
theorem load_masked_semantics :
    (∀ (T addr : Type) (w : Nat) (mem : addr → T) (u : vec T w)
        (v : vec addr w) (m : maskVec w) (i : Fin w),
      (load_masked w mem u v m).get i =
        if (movemask m).testBit i then mem (v.get i) else u.get i) ∧
    (∀ i : Fin 4,
      (load_masked 4 (fun a : Nat => [100, 200, 300, 400].getD a 0)
          (vec.defaultVec 4 (0 : Int)) (vec.ofList 4 0 [0, 1, 2, 3])
          (maskVec.ofList 4 [true, true, false, false])).get i
        = (vec.ofList 4 0 [100, 200, 0, 0]).get i) := by
  constructor
  · intro T addr w mem u v m i
    rw [load_masked, foreach_active, get_putLoop]
    by_cases hbit : (movemask m).testBit i
    · rw [if_pos ((foreachActive_mem (movemask m) i).mpr hbit), if_pos hbit]
    · rw [if_neg (fun hmem => hbit ((foreachActive_mem (movemask m) i).mp hmem)),
        if_neg hbit]
  · intro i
    have hlist : foreach_active (maskVec.ofList 4 [true, true, false, false]) = [0, 1] := by
      simp [foreach_active, movemask, maskVec.ofList, foreachActiveList, bscf]
    rw [load_masked, hlist]
    fin_cases i <;> rfl

/-! ## The packed-word width invariant (vec.hpp lines 401-464)

The spec asserts `movemask() & ~width_mask == 0` for every reachable
mask vector.  Equivalently, the packed word is below `2 ^ width`. -/

lemma testBit_eq_false_of_lt_pow {x k j : Nat} (h : x < 2 ^ k) (hkj : k ≤ j) :
    x.testBit j = false :=
  Nat.testBit_lt_two_pow
    (lt_of_lt_of_le h (Nat.pow_le_pow_right (by norm_num) hkj))

lemma width_mask_lt (w : Nat) : width_mask w < 2 ^ w := by
  rw [width_mask, Nat.shiftLeft_eq, one_mul]
  exact Nat.sub_lt (Nat.two_pow_pos w) one_pos

/-- A packed word below `2 ^ width` has no bit in common with the
32-bit complement of `width_mask`: the claim's invariant statement. -/
lemma inv_of_lt {w : Nat} (hw : w ≤ 32) {d : Nat} (hd : d < 2 ^ w) :
    d &&& not32 (width_mask w) = 0 := by
  apply Nat.eq_of_testBit_eq
  intro j
  rw [Nat.zero_testBit, Nat.testBit_land]
  by_cases hj : j < w
  · have h1 : (not32 (width_mask w)).testBit j = false := by
      rw [not32, Nat.testBit_xor, Nat.testBit_two_pow_sub_one, width_mask,
        Nat.shiftLeft_eq, one_mul, Nat.testBit_two_pow_sub_one]
      simp [hj, lt_of_lt_of_le hj hw]
    simp [h1]
  · simp [testBit_eq_false_of_lt_pow hd (by omega : w ≤ j)]

lemma ofList_go_lt : ∀ (bs : List Bool) (k acc : Nat), acc < 2 ^ k →
    (bs.foldl (fun (p : Nat × Nat) b => (if b then p.1 ||| p.2 else p.1, p.2 <<< 1))
        (acc, 2 ^ k)).1
      < 2 ^ (k + bs.length) := by
  intro bs
  induction bs with
  | nil => intro k acc h; simpa using h
  | cons b bs ihb =>
    intro k acc hacc
    have hcons :
        ((b :: bs).foldl
            (fun (p : Nat × Nat) b => (if b then p.1 ||| p.2 else p.1, p.2 <<< 1))
            (acc, 2 ^ k)).1
          = (bs.foldl
              (fun (p : Nat × Nat) b => (if b then p.1 ||| p.2 else p.1, p.2 <<< 1))
              ((if b then acc ||| 2 ^ k else acc), (2 ^ k) <<< 1)).1 := rfl
    have hshift : (2 ^ k) <<< 1 = 2 ^ (k + 1) := by
      rw [Nat.shiftLeft_eq, pow_one, ← pow_succ]
    have hacc' : (if b then acc ||| 2 ^ k else acc) < 2 ^ (k + 1) := by
      have hk1 : acc < 2 ^ (k + 1) :=
        lt_of_lt_of_le hacc (Nat.pow_le_pow_right (by norm_num) (by omega))
      have h2k : 2 ^ k < 2 ^ (k + 1) := Nat.pow_lt_pow_right (by norm_num) (by omega)
      cases b
      · simpa using hk1
      · simpa using Nat.or_lt_two_pow hk1 h2k
    rw [hcons, hshift]
    have hrec := ihb (k + 1) (if b then acc ||| 2 ^ k else acc) hacc'
    have hexp : k + (b :: bs).length = k + 1 + bs.length := by
      rw [List.length_cons]; omega
    rw [hexp]
    exact hrec

lemma ofVec_go_lt {w : Nat} (g : Fin w → Bool) :
    ∀ (xs : List Nat) (acc : Nat), acc < 2 ^ w →
      xs.foldl
          (fun d j => if h : j < w then (if g ⟨j, h⟩ then d ||| (1 <<< j) else d) else d)
          acc
        < 2 ^ w := by
  intro xs
  induction xs with
  | nil => intro acc h; simpa using h
  | cons x xs ihx =>
    intro acc hacc
    have hcons :
        (x :: xs).foldl
            (fun d j => if h : j < w then (if g ⟨j, h⟩ then d ||| (1 <<< j) else d) else d)
            acc
          = xs.foldl
              (fun d j => if h : j < w then (if g ⟨j, h⟩ then d ||| (1 <<< j) else d) else d)
              (if h : x < w then (if g ⟨x, h⟩ then acc ||| (1 <<< x) else acc) else acc) := rfl
    rw [hcons]
    apply ihx
    by_cases hx : x < w
    · rw [dif_pos hx]
      cases hg : g ⟨x, hx⟩
      · simpa using hacc
      · rw [if_pos rfl, Nat.shiftLeft_eq, one_mul]
        exact Nat.or_lt_two_pow hacc (Nat.pow_lt_pow_right (by norm_num) hx)
    · rw [dif_neg hx]
      exact hacc

lemma mput_lt {w : Nat} (m : maskVec w) (i : Nat) (b : Bool)
    (hi : i < w) (hm : m.data < 2 ^ w) : (m.mput i b).data < 2 ^ w := by
  cases b
  · show (m.data &&& not64shift i) % 2 ^ 32 < 2 ^ w
    exact lt_of_le_of_lt (le_trans (Nat.mod_le _ _) Nat.and_le_left) hm
  · show m.data ||| 1 <<< i < 2 ^ w
    rw [Nat.shiftLeft_eq, one_mul]
    exact Nat.or_lt_two_pow hm (Nat.pow_lt_pow_right (by norm_num) hi)

/-- C9 counterexample.  The initializer-list constructor of
`vec<bool,A>` (vec.hpp:440-446) sets one bit per list element with no
cap at `width`: at width 4 the list `{false,false,false,false,true}`
sets bit 4, so the constructed mask violates
`movemask() & ~width_mask == 0`. -/
theorem mask_invariant_initlist_counterexample :
    movemask (maskVec.ofList 4 [false, false, false, false, true]) &&&
      not32 (width_mask 4) ≠ 0 := by
  decide

/-- C9 (amended).  Every mask vector built by the public operations —
construction from `bool`, `true_type` / `false_type`, an initializer
list of at most `width` elements, or another vector; `put` at a lane
below `width`; and the boolean operators `~`, `!`, `&`, `|`, `^`, `&&`,
`||` (whose compound forms compute the same words) — has its packed word
below `2 ^ width`, and hence satisfies the claimed invariant
`movemask() & ~width_mask == 0`. -/
theorem mask_invariant_preserved :
    ∀ w : Nat, w ≤ 32 →
      movemask (maskVec.defaultMask w) < 2 ^ w ∧
      (∀ b, movemask (maskVec.ofBool w b) < 2 ^ w) ∧
      movemask (maskVec.ofFalse w) < 2 ^ w ∧
      movemask (maskVec.ofTrue w) < 2 ^ w ∧
      (∀ bs : List Bool, bs.length ≤ w → movemask (maskVec.ofList w bs) < 2 ^ w) ∧
      (∀ g : Fin w → Bool, movemask (maskVec.ofVec w g) < 2 ^ w) ∧
      (∀ m : maskVec w, movemask m < 2 ^ w → movemask m.mnot < 2 ^ w) ∧
      (∀ m n : maskVec w, movemask m < 2 ^ w → movemask n < 2 ^ w →
        movemask (m.mand n) < 2 ^ w ∧ movemask (m.mor n) < 2 ^ w ∧
        movemask (m.mxor n) < 2 ^ w ∧ movemask (m.mandand n) < 2 ^ w ∧
        movemask (m.moror n) < 2 ^ w) ∧
      (∀ (m : maskVec w) (i : Nat) (b : Bool), i < w → movemask m < 2 ^ w →
        movemask (m.mput i b) < 2 ^ w) ∧
      (∀ m : maskVec w, movemask m < 2 ^ w →
        movemask m &&& not32 (width_mask w) = 0) := by
  intro w hw
  refine ⟨Nat.two_pow_pos w, ?_, Nat.two_pow_pos w, width_mask_lt w, ?_, ?_, ?_, ?_, ?_, ?_⟩
  · intro b
    cases b
    · exact Nat.two_pow_pos w
    · exact width_mask_lt w
  · intro bs hbs
    have h := ofList_go_lt bs 0 0 (Nat.two_pow_pos 0)
    exact lt_of_lt_of_le h
      (Nat.pow_le_pow_right (by norm_num) (by omega : 0 + bs.length ≤ w))
  · intro g
    exact ofVec_go_lt g (List.range w) 0 (Nat.two_pow_pos w)
  · intro m hm
    exact Nat.xor_lt_two_pow hm (width_mask_lt w)
  · intro m n hm hn
    exact ⟨Nat.and_lt_two_pow _ hn, Nat.or_lt_two_pow hm hn,
      Nat.xor_lt_two_pow hm hn, Nat.and_lt_two_pow _ hn,
      Nat.or_lt_two_pow hm hn⟩
  · intro m i b hi hm
    exact mput_lt m i b hi hm
  · intro m hm
    exact inv_of_lt hw hm

/-- C9 witness: concrete instantiation at width 4 of the amended
invariant theorem, hypotheses discharged by `decide`. -/
theorem mask_invariant_preserved_witness :
    (4 ≤ 32 ∧ ([true, false, true, false] : List Bool).length ≤ 4 ∧ 2 < 4) ∧
    movemask (maskVec.ofList 4 [true, false, true, false]) < 2 ^ 4 ∧
    movemask ((maskVec.ofList 4 [true, false, true, false]).mput 2 true) < 2 ^ 4 ∧
    movemask (maskVec.ofList 4 [true, false, true, false]) &&&
      not32 (width_mask 4) = 0 := by
  have h := mask_invariant_preserved 4 (by decide)
  have hof := h.2.2.2.2.1 [true, false, true, false] (by decide)
  exact ⟨⟨by decide, by decide, by decide⟩, hof,
    h.2.2.2.2.2.2.2.2.1 _ 2 true (by decide) hof,
    h.2.2.2.2.2.2.2.2.2 _ hof⟩

end rts
